import Mathlib

/-!
Verification of the messenger-archive analysis pipeline against its
natural-language specification.

The definitions below are a shallow embedding of the Python sources:

* `src/api/src/services/discussions.py` — `DiscussionAnalyzer`
  (windowing, dormancy, message appending, topic classification);
* `src/api/src/routers/discussions.py`  — `_run_analysis_async`
  (full-mode run deletion, incremental post-processing);
* `src/api/src/routers/search.py`       — hybrid search scoring and
  `embed_entity`;
* `src/api/src/services/ai.py`          — `TokenBucket` rate limiter;
* `src/api/src/services/embeddings.py`  — `EmbeddingService.embed_text`;
* `src/api/src/db.py`                   — cascade behaviour of the schema.

Python machine-level details are modelled as follows: Python `int` is `Nat`
(all quantities here are non-negative counters and ids), Python `float`
scores and timestamps are modelled as `Rat` (the claims are about the
algebraic structure of the computations, not float rounding), strings are
`String`, and SHA-256 hashing is an abstract function parameter (the spec
treats hashing as an external capability).
-/

namespace MessengerArchive

/-! # Definitions -/

/-! ## Window arithmetic (`DiscussionAnalyzer.analyze_all_messages`)

`WINDOW_SIZE = 300`, `OVERLAP_SIZE = 40` from the class constants.  The
full-mode loop is

    window_start = 0
    while window_start < total_messages:
        ...
        window_start += net_per_window

preceded by an early return when `total_messages == 0`.
-/

def WINDOW_SIZE : Nat := 300

def OVERLAP_SIZE : Nat := 40

def netPerWindow : Nat := WINDOW_SIZE - OVERLAP_SIZE

/-- Number of iterations of the `while window_start < total_messages` loop
in `analyze_all_messages`, starting from `start`. -/
def windowLoop (total start : Nat) : Nat :=
  if start < total then windowLoop total (start + netPerWindow) + 1 else 0
termination_by total - start
decreasing_by
  have h260 : 0 < netPerWindow := by decide
  omega

/-- Windows processed by a full-mode run on `n` eligible messages:
`analyze_all_messages` returns early with zero windows when `n = 0`,
otherwise runs the window loop from `window_start = 0`. -/
def fullModeWindowsProcessed (n : Nat) : Nat :=
  if n = 0 then 0 else windowLoop n 0

/-- The `total_windows` value computed by the source:
`max(1, (total_messages + net_per_window - 1) // net_per_window)`. -/
def fullModeTotalWindows (n : Nat) : Nat :=
  max 1 ((n + netPerWindow - 1) / netPerWindow)

/-- The window count claimed by the spec: `ceil(max(1, N) / (W - O))`. -/
def claimedWindowCount (n : Nat) : Nat :=
  (max 1 n + (netPerWindow - 1)) / netPerWindow

/-! ## Generic sorting helper

SQL `ORDER BY` clauses and Python's `sorted` are modelled by an insertion
sort over a boolean comparator.  Only the order guarantee of the comparator
is relevant to the claims, not the physical algorithm.
-/

def insertSorted {α : Type} (le : α → α → Bool) (a : α) : List α → List α
  | [] => [a]
  | b :: t => if le a b then a :: b :: t else b :: insertSorted le a t

def sortBy {α : Type} (le : α → α → Bool) : List α → List α
  | [] => []
  | a :: t => insertSorted le a (sortBy le t)

/-! ## Hybrid search scoring (`_search_entity_type` in `routers/search.py`)

The scoring core: each vector candidate `(entity_id, semantic_score)` is
fused with its keyword score (`keyword_scores.get(entity_id, 0)`), rows
with `final_score < SIMILARITY_THRESHOLD` are dropped, the survivors are
sorted by score descending, `total_count` is taken before pagination, and
the page slice is `scored_results[offset : offset + page_size]`.
Scores are modelled as rationals.
-/

inductive MatchType : Type
  | hybrid
  | semantic
deriving DecidableEq, Repr

def SIMILARITY_THRESHOLD : ℚ := 3 / 10

def ALPHA : ℚ := 1 / 2

/-- The fusion step of `_search_entity_type`: hybrid when the keyword score
is positive, pure semantic otherwise. -/
def fuseScore (semantic keyword : ℚ) : ℚ × MatchType :=
  if 0 < keyword then (ALPHA * semantic + ALPHA * keyword, MatchType.hybrid)
  else (semantic, MatchType.semantic)

/-- The `scored_results` list: candidates fused and thresholded, in
candidate order. -/
def scoredResults (cands : List (Nat × ℚ)) (kw : Nat → ℚ) :
    List (Nat × ℚ × MatchType) :=
  cands.filterMap fun c =>
    let f := fuseScore c.2 (kw c.1)
    if SIMILARITY_THRESHOLD ≤ f.1 then some (c.1, f.1, f.2) else none

/-- `scored_results.sort(key=lambda x: x[1], reverse=True)`. -/
def sortScored (l : List (Nat × ℚ × MatchType)) : List (Nat × ℚ × MatchType) :=
  sortBy (fun a b => decide (b.2.1 ≤ a.2.1)) l

/-- `scored_results[offset : offset + page_size]` with
`offset = (page - 1) * page_size`. -/
def paginate {α : Type} (page pageSize : Nat) (l : List α) : List α :=
  (l.drop ((page - 1) * pageSize)).take pageSize

/-- `total_count = len(scored_results)`, taken after sorting and before
pagination. -/
def searchTotalCount (cands : List (Nat × ℚ)) (kw : Nat → ℚ) : Nat :=
  (sortScored (scoredResults cands kw)).length

/-- Concrete candidate set used in the scoring witness (semantic scores of
spec scenario 4). -/
def candsW : List (Nat × ℚ) := [(1, 82/100), (2, 91/100), (3, 25/100)]

/-- Concrete keyword scores used in the scoring witness. -/
def kwW : Nat → ℚ := fun j => if j = 1 then 7/10 else if j = 2 then 1 else 0

/-! ## Rate limiter (`TokenBucket` and its use in `services/ai.py`)

`_usage` is a list of `(timestamp, tokens)` pairs.  Wall-clock time
(`time.time()`) is passed explicitly as `now`.  The `AIService` admission
gate is `if not self.rate_limiter.can_use(estimated_total): raise
RateLimitExceeded(retry_after)`; usage is recorded only after a successful
provider call.
-/

/-- `TokenBucket._cleanup_old_entries`: drop entries with
`ts <= now - window_seconds` (the source keeps `ts > cutoff`). -/
def cleanupOldEntries (now : ℚ) (usage : List (ℚ × Nat)) : List (ℚ × Nat) :=
  usage.filter fun e => decide (now - 60 < e.1)

/-- `TokenBucket.get_current_usage`: sum of tokens in the current window. -/
def getCurrentUsage (now : ℚ) (usage : List (ℚ × Nat)) : Nat :=
  ((cleanupOldEntries now usage).map (fun e => e.2)).sum

/-- `TokenBucket.can_use`. -/
def canUse (maxTokens : Nat) (now : ℚ) (usage : List (ℚ × Nat)) (t : Nat) : Bool :=
  decide (getCurrentUsage now usage + t ≤ maxTokens)

/-- `TokenBucket.record_usage`. -/
def recordUsage (now : ℚ) (usage : List (ℚ × Nat)) (tokens : Nat) :
    List (ℚ × Nat) :=
  usage ++ [(now, tokens)]

/-- Python tuple comparison used by `sorted(self._usage)`:
lexicographic on `(timestamp, tokens)`. -/
def entryLe (a b : ℚ × Nat) : Bool :=
  decide (a.1 < b.1) || (decide (a.1 = b.1) && decide (a.2 ≤ b.2))

/-- The accumulation loop of `TokenBucket.time_until_available`: walk the
sorted usage entries until enough tokens would expire, then return
`max(0, ts + window_seconds - now)`; fall back to the window length. -/
def timeUntilAvailLoop (now : ℚ) (needed acc : Nat) : List (ℚ × Nat) → ℚ
  | [] => 60
  | e :: rest =>
      if needed ≤ acc + e.2 then max 0 (e.1 + 60 - now)
      else timeUntilAvailLoop now needed (acc + e.2) rest

/-- `TokenBucket.time_until_available`. -/
def timeUntilAvailable (maxTokens : Nat) (now : ℚ) (usage : List (ℚ × Nat))
    (t : Nat) : ℚ :=
  let u := cleanupOldEntries now usage
  if u = [] then 0
  else
    let current := (u.map (fun e => e.2)).sum
    if current + t ≤ maxTokens then 0
    else timeUntilAvailLoop now (current + t - maxTokens) 0 (sortBy entryLe u)

/-- The admission gate of `AIService.generate_profile_summary`: check
`can_use`, on refusal raise `RateLimitExceeded(time_until_available(t))`.
Returns `(some retry_after, usage')` on refusal, `(none, usage')` on
admission; `usage'` reflects the in-place cleanup performed by
`get_current_usage`. -/
def attemptRequest (maxTokens : Nat) (now : ℚ) (usage : List (ℚ × Nat))
    (t : Nat) : Option ℚ × List (ℚ × Nat) :=
  let u1 := cleanupOldEntries now usage
  if canUse maxTokens now usage t then (none, u1)
  else (some (timeUntilAvailable maxTokens now u1 t), u1)

/-! ## Message appending (`DiscussionAnalyzer._add_message_to_discussion`)

The database slice relevant to the claim: `Discussion.message_count` per
discussion row and the `DiscussionMessage` rows `(discussion_id,
message_id, confidence)`.
-/

/-- Discussion rows as `(id, message_count)` and `DiscussionMessage` rows as
`(discussion_id, message_id, confidence)`. -/
structure AnalyzerDB : Type where
  discussions : List (Nat × Nat)
  links : List (Nat × Nat × ℚ)
deriving DecidableEq, Repr

/-- The `existing` lookup of `_add_message_to_discussion`. -/
def isLinked (db : AnalyzerDB) (d m : Nat) : Bool :=
  (db.links.find? fun l => decide (l.1 = d) && decide (l.2.1 = m)).isSome

/-- `_add_message_to_discussion`: return unchanged when the
`(discussion_id, message_id)` row exists, otherwise insert the row and
increment the discussion's `message_count`. -/
def addMessageToDiscussion (db : AnalyzerDB) (d m : Nat) (conf : ℚ) : AnalyzerDB :=
  if isLinked db d m then db
  else
    { discussions := db.discussions.map fun p => if p.1 = d then (p.1, p.2 + 1) else p,
      links := db.links ++ [(d, m, conf)] }

/-- `_create_discussion_in_db` restricted to the claim's fields: a fresh
discussion row starts with `message_count = 0` and no links. -/
def createDiscussionRow (db : AnalyzerDB) (d : Nat) : AnalyzerDB :=
  { discussions := db.discussions ++ [(d, 0)], links := db.links }

/-- The write operations a window performs against discussions and their
message links. -/
inductive AnalyzerOp : Type
  | create (d : Nat)
  | addMsg (d m : Nat) (conf : ℚ)
deriving DecidableEq, Repr

def applyOp (db : AnalyzerDB) : AnalyzerOp → AnalyzerDB
  | AnalyzerOp.create d => createDiscussionRow db d
  | AnalyzerOp.addMsg d m conf => addMessageToDiscussion db d m conf

def applyOps (db : AnalyzerDB) (ops : List AnalyzerOp) : AnalyzerDB :=
  ops.foldl applyOp db

/-- Freshness of created ids: the database assigns a primary key that no
existing link references. -/
def opsValid (db : AnalyzerDB) : List AnalyzerOp → Bool
  | [] => true
  | AnalyzerOp.create d :: rest =>
      db.links.all (fun l => decide (l.1 ≠ d)) &&
        opsValid (applyOp db (AnalyzerOp.create d)) rest
  | AnalyzerOp.addMsg d m conf :: rest =>
      opsValid (applyOp db (AnalyzerOp.addMsg d m conf)) rest

/-- The invariant of the claim: every discussion row's `message_count`
equals the number of `DiscussionMessage` rows for that discussion. -/
def countInvariant (db : AnalyzerDB) : Bool :=
  db.discussions.all fun p =>
    decide (p.2 = (db.links.filter fun l => decide (l.1 = p.1)).length)

/-! ## Dormancy (`DiscussionAnalyzer._update_state_from_response`,
`_format_active_discussions`)

The per-window state transition on the analyzer's in-memory discussions:
first refresh `last_active_window` (and revive) for discussions that
received messages, then mark inactive discussions dormant at the 5-window
threshold, then mark the `discussions_ended` ids ended.
-/

def DORMANCY_THRESHOLD : Nat := 5

structure WinDisc : Type where
  ended : Bool
  dormant : Bool
  lastActiveWindow : Nat
deriving DecidableEq, Repr

/-- Refresh step (source lines: "Update last_active_window for discussions
that received messages", including revival of dormant discussions). -/
def refreshActive (activeIds : List Nat) (w : Nat) (p : Nat × WinDisc) :
    Nat × WinDisc :=
  if p.1 ∈ activeIds then
    (p.1, { p.2 with lastActiveWindow := w, dormant := false })
  else p

/-- Dormancy step ("Check for discussions that should go dormant"):
skip ended or already-dormant discussions, mark dormant when
`current_window - last_active_window >= DORMANCY_THRESHOLD`. -/
def markDormant (w : Nat) (p : Nat × WinDisc) : Nat × WinDisc :=
  if ¬p.2.ended ∧ ¬p.2.dormant ∧ DORMANCY_THRESHOLD ≤ w - p.2.lastActiveWindow then
    (p.1, { p.2 with dormant := true })
  else p

/-- Ended step ("Mark ended discussions"). -/
def markEnded (endedIds : List Nat) (p : Nat × WinDisc) : Nat × WinDisc :=
  if p.1 ∈ endedIds then (p.1, { p.2 with ended := true }) else p

/-- The dormancy-relevant part of `_update_state_from_response` for window
`w`: `activeIds` are the discussions that received at least one applied
message assignment this window (`discussions_active_this_window`),
`endedIds` is the response's `discussions_ended`. -/
def windowStateStep (state : List (Nat × WinDisc)) (activeIds endedIds : List Nat)
    (w : Nat) : List (Nat × WinDisc) :=
  ((state.map (refreshActive activeIds w)).map (markDormant w)).map
    (markEnded endedIds)

/-- Dictionary lookup `self.state.active_discussions[id]`. -/
def lookupDisc (state : List (Nat × WinDisc)) (i : Nat) : Option WinDisc :=
  (state.find? fun p => decide (p.1 = i)).map fun p => p.2

/-- `_format_active_discussions`: ended or dormant discussions are skipped
when building the prompt's active-discussions list. -/
def promptActiveIds (state : List (Nat × WinDisc)) : List Nat :=
  (state.filter fun p => !p.2.ended && !p.2.dormant).map fun p => p.1

/-! ## Store rows (`db.py`) and analysis-run data flow

A relational slice of the schema sufficient for the run-deletion and
windowing claims.  Timestamps are rationals, message content is `Option
String` (SQL NULL = `none`).
-/

structure MsgRow : Type where
  mid : Nat
  room : Nat
  ts : ℚ
  content : Option String
deriving DecidableEq, Repr

structure DiscRow : Type where
  did : Nat
  room : Nat
  runId : Option Nat
  title : String
  summary : Option String
  endedAt : ℚ
deriving DecidableEq, Repr

structure RunRow : Type where
  rid : Nat
  room : Nat
  status : String
  completedAt : Option ℚ
  endMsgId : Option Nat
deriving DecidableEq, Repr

structure Store : Type where
  msgs : List MsgRow
  discussions : List DiscRow
  links : List (Nat × Nat)
  runs : List RunRow
deriving DecidableEq, Repr

/-! ## Full-mode run deletion (`_run_analysis_async`, `db.py` cascades)

In full mode the router deletes every `DiscussionAnalysisRun` with
`id != run_id` (no room filter).  Deleting a run cascades to its
discussions (`cascade="all, delete-orphan"` on
`DiscussionAnalysisRun.discussions`) and from each deleted discussion to
its `DiscussionMessage` rows (`ondelete="CASCADE"`).
-/

/-- ORM deletion of one run record together with its cascaded discussions
and discussion-message links. -/
def cascadeDeleteRun (s : Store) (rid : Nat) : Store :=
  let deadDiscIds := (s.discussions.filter fun d => decide (d.runId = some rid)).map
    fun d => d.did
  { msgs := s.msgs,
    runs := s.runs.filter fun r => decide (r.rid ≠ rid),
    discussions := s.discussions.filter fun d => decide (d.runId ≠ some rid),
    links := s.links.filter fun l => decide (l.1 ∉ deadDiscIds) }

/-- The full-mode deletion loop: query all runs with `id != run_id` and
delete each. -/
def fullModeDeletePreviousRuns (s : Store) (runId : Nat) : Store :=
  ((s.runs.filter fun r => decide (r.rid ≠ runId)).map fun r => r.rid).foldl
    cascadeDeleteRun s

/-- Concrete store for the run-deletion witness: the fresh run 3 in room 1,
a completed run 2 in a different room 2 with one discussion and one
linked message. -/
def runStoreW : Store :=
  { msgs := [],
    discussions := [⟨10, 2, some 2, "t", none, 0⟩],
    links := [(10, 100)],
    runs := [⟨3, 1, "running", none, none⟩, ⟨2, 2, "completed", some 50, some 100⟩] }

/-! ## Windowing order (`analyze_all_messages`,
`load_incremental_context`, `analyze_incremental`)

Eligibility is `content IS NOT NULL AND content != ''`.  The full-mode
fetch orders by `timestamp` ascending only; the incremental context fetch
orders by `id` descending, truncates to `CONTEXT_WINDOWS * WINDOW_SIZE`
messages and reverses; the incremental new-message fetch orders by
`timestamp` ascending only.
-/

def CONTEXT_WINDOWS : Nat := 4

def eligibleMsg (m : MsgRow) : Bool :=
  decide (m.content ≠ none) && decide (m.content ≠ some "")

def tsLeMsg (a b : MsgRow) : Bool := decide (a.ts ≤ b.ts)

def idLeMsg (a b : MsgRow) : Bool := decide (a.mid ≤ b.mid)

def idGeMsg (a b : MsgRow) : Bool := decide (b.mid ≤ a.mid)

/-- The `(timestamp, id)` lexicographic order claimed by the spec. -/
def tsIdLeMsg (a b : MsgRow) : Bool :=
  decide (a.ts < b.ts) || (decide (a.ts = b.ts) && decide (a.mid ≤ b.mid))

/-- Full-mode message fetch: room filter, eligibility filter,
`ORDER BY timestamp ASC`. -/
def fullModeFetch (s : Store) (roomId : Nat) : List MsgRow :=
  sortBy tsLeMsg (s.msgs.filter fun m => decide (m.room = roomId) && eligibleMsg m)

/-- Incremental context fetch: `id <= cutoff`, `ORDER BY id DESC`,
`LIMIT context_windows * window_size`, then reversed to chronological
order. -/
def contextFetch (s : Store) (roomId cutoffId : Nat) : List MsgRow :=
  ((sortBy idGeMsg (s.msgs.filter fun m =>
      decide (m.room = roomId) && decide (m.mid ≤ cutoffId) && eligibleMsg m)).take
    (CONTEXT_WINDOWS * WINDOW_SIZE)).reverse

/-- Incremental new-message fetch: `id > cutoff`, `ORDER BY timestamp ASC`. -/
def newMessagesFetch (s : Store) (roomId cutoffId : Nat) : List MsgRow :=
  sortBy tsLeMsg (s.msgs.filter fun m =>
    decide (m.room = roomId) && decide (cutoffId < m.mid) && eligibleMsg m)

/-- Two-message store in which ids and timestamps are oppositely ordered:
message 1 is the later one (timestamp 20), message 2 the earlier one
(timestamp 10). -/
def invertedStore : Store :=
  { msgs := [⟨1, 1, 20, some "late"⟩, ⟨2, 1, 10, some "early"⟩],
    discussions := [], links := [], runs := [] }

/-- Aligned store for the windowing-order witness. -/
def alignedStore : Store :=
  { msgs := [⟨1, 1, 10, some "a"⟩, ⟨2, 1, 20, some "b"⟩],
    discussions := [], links := [], runs := [] }

/-! ## Single-entity embedding (`embed_entity` in `routers/search.py`,
`EmbeddingService.embed_text`, `get_content_hash`)

Texts are modelled as `List Char` (Python string slicing is `List.take`);
SHA-256 is an abstract injective function parameter.  `embed_entity`
compares the stored `content_hash` with `get_content_hash(content)` — the
hash of the *untruncated* prepared content — while `embed_text` truncates
the text to 8,000 characters *before* hashing and that truncated hash is
what gets stored.
-/

def MAX_EMBED_CHARS : Nat := 8000

/-- The truncation in `embed_text`: `if len(text) > max_chars: text =
text[:max_chars]`. -/
def truncateForEmbed (t : List Char) : List Char :=
  if MAX_EMBED_CHARS < t.length then t.take MAX_EMBED_CHARS else t

/-- The `content_hash` carried by the `EmbeddingResult` of `embed_text`:
hash of the truncated text. -/
def embedTextHash {β : Type} (hash : List Char → β) (t : List Char) : β :=
  hash (truncateForEmbed t)

/-- One `embed_entity` call for a fixed prepared content and the currently
stored hash: returns `(upstream embed calls made, new stored hash)`.
Skips (zero calls) exactly when the stored hash equals
`get_content_hash(content)`; otherwise calls `embed_text` once and stores
its `content_hash`. -/
def embedEntityStep {β : Type} [DecidableEq β] (hash : List Char → β)
    (content : List Char) (stored : Option β) : Nat × Option β :=
  if stored = some (hash content) then (0, stored)
  else (1, some (embedTextHash hash content))

/-- Total upstream embed calls made by two consecutive `embed_entity`
calls with unchanged content. -/
def embedEntityTwice {β : Type} [DecidableEq β] (hash : List Char → β)
    (content : List Char) (stored : Option β) : Nat :=
  (embedEntityStep hash content stored).1 +
    (embedEntityStep hash content (embedEntityStep hash content stored).2).1

/-! ## Topic classification (`DiscussionAnalyzer.classify_topics`)

The apply phase after the model response has been parsed: clear the
`discussion_topics` table (the source issues an *unfiltered*
`self.db.query(DiscussionTopic).delete()`), upsert the returned topics by
case-insensitive name against the room's existing topics, insert links for
assignments whose topic name resolved, and delete every topic with no
remaining assignment (again with no room filter).
-/

structure TopicRow : Type where
  tid : Nat
  room : Nat
  name : String
  description : Option String
  color : String
deriving DecidableEq, Repr

/-- The model's parsed topic-classification response. -/
structure TopicAIResp : Type where
  topics : List (String × String)
  assignments : List (Nat × List String)
deriving DecidableEq, Repr

def TOPIC_COLORS : List String :=
  ["#6366f1", "#f43f5e", "#f59e0b", "#10b981", "#0ea5e9",
   "#8b5cf6", "#14b8a6", "#f97316", "#ec4899", "#06b6d4"]

/-- `existing_topic_names = {t.name.lower(): t for t in existing_topics}`
followed by `.get(topic_def.name.lower())`: a Python dict keeps the last
entry per key, so look up the last matching topic. -/
def lookupCI (existing : List TopicRow) (nm : String) : Option TopicRow :=
  existing.reverse.find? fun t => decide (t.name.toLower = nm.toLower)

/-- `existing.description = topic_def.description` on the matched row. -/
def updateDesc (topics : List TopicRow) (tid : Nat) (desc : String) :
    List TopicRow :=
  topics.map fun t => if t.tid = tid then { t with description := some desc } else t

/-- The `for topic_def in ai_response.topics` loop: upsert each returned
topic, extending `topic_name_to_id` and advancing the color index and the
fresh primary key on creation.  Returns the topics table and the name map. -/
def upsertTopicsLoop (existing : List TopicRow) (roomId : Nat) :
    List (String × String) → List TopicRow → List (String × Nat) → Nat → Nat →
      List TopicRow × List (String × Nat)
  | [], ts, nameMap, _, _ => (ts, nameMap)
  | (nm, desc) :: rest, ts, nameMap, colorIndex, nid =>
      match lookupCI existing nm with
      | some t =>
          upsertTopicsLoop existing roomId rest (updateDesc ts t.tid desc)
            (nameMap ++ [(nm, t.tid)]) colorIndex nid
      | none =>
          upsertTopicsLoop existing roomId rest
            (ts ++ [⟨nid, roomId, nm, some desc,
              TOPIC_COLORS.getD (colorIndex % TOPIC_COLORS.length) ""⟩])
            (nameMap ++ [(nm, nid)]) (colorIndex + 1) (nid + 1)

/-- `topic_name_to_id.get(topic_name)`: a Python dict keeps the last entry
per (exact) name. -/
def nameMapGet (m : List (String × Nat)) (nm : String) : Option Nat :=
  (m.reverse.find? fun p => decide (p.1 = nm)).map fun p => p.2

/-- The assignment loop: one link per resolved topic name per assignment. -/
def buildAssignmentLinks (nameMap : List (String × Nat))
    (assignments : List (Nat × List String)) : List (Nat × Nat) :=
  (assignments.map fun a =>
    a.2.filterMap fun nm => (nameMapGet nameMap nm).map fun tid => (a.1, tid)).flatten

/-- The apply phase of `classify_topics`: global link clear, upsert of
returned topics (color index starts at `len(existing) % 10`, fresh ids from
`nextId`), insertion of resolved assignment links, and global deletion of
topics with no remaining link.  Returns the new topics table and the new
`discussion_topics` table. -/
def classifyTopicsApply (topics : List TopicRow) (_links : List (Nat × Nat))
    (roomId nextId : Nat) (resp : TopicAIResp) :
    List TopicRow × List (Nat × Nat) :=
  let existing := topics.filter fun t => decide (t.room = roomId)
  let r := upsertTopicsLoop existing roomId resp.topics topics []
    (existing.length % TOPIC_COLORS.length) nextId
  let links2 := buildAssignmentLinks r.2 resp.assignments
  (r.1.filter fun t => decide (t.tid ∈ links2.map fun l => l.2), links2)

/-- Cross-room input state for the topic-classification counterexample:
room 2 owns topic 2 with one link; the run classifies room 1. -/
def topicsCE : List TopicRow := [⟨2, 2, "Other", some "x", "#ffffff"⟩]

def topicLinksCE : List (Nat × Nat) := [(9, 2)]

def topicRespCE : TopicAIResp := ⟨[("A", "d")], [(7, ["A"])]⟩

/-- Input state for the topic-classification witness (spec scenario 6
flavour): room 1 owns "Ethics", room 2 owns "Other"; the model returns
"ethics" (case-insensitive reuse) and "Aesthetics" (new). -/
def topicsW : List TopicRow :=
  [⟨1, 1, "Ethics", some "old", "#111111"⟩, ⟨2, 2, "Other", none, "#222222"⟩]

def topicRespW : TopicAIResp :=
  ⟨[("ethics", "newdesc"), ("Aesthetics", "d2")], [(7, ["ethics", "Aesthetics"])]⟩

/-! ## Incremental analysis with zero new messages
(`_run_analysis_async`, incremental branch)

In this source tree the incremental branch of `_run_analysis_async` never
reaches `analyze_incremental`: it constructs the analyzer as
`DiscussionAnalyzer(api_key=api_key, db_session=db, run_id=run_id)`, while
`DiscussionAnalyzer.__init__` requires a fourth parameter `room_id` with no
default, so the call raises `TypeError` before any analysis.  Up to that
point the branch has performed no writes (the run-record lookup and the
`mode` check are reads; incremental mode skips the full-mode deletion
block), and the `except` handler only sets the run record's `status` to
`"failed"` (plus `error_message` and `completed_at`) and commits.  Hence
the whole incremental branch touches no discussion, discussion-message,
message, or embedding row.  Python keyword-argument binding is modelled
explicitly: a call binds iff every required parameter receives an
argument.
-/

/-- Boolean "later completed_at" used to model
`ORDER BY completed_at DESC ... .first()`. -/
def completedLater (a b : Option ℚ) : Bool :=
  match a, b with
  | some x, some y => decide (x < y)
  | none, some _ => true
  | _, none => false

/-- The most recent completed run of the room with a non-null
`end_message_id` (`get_incremental_cutoff`'s query). -/
def latestCompletedRun (s : Store) (roomId : Nat) : Option RunRow :=
  (s.runs.filter fun r => decide (r.room = roomId) &&
      decide (r.status = "completed") && decide (r.endMsgId ≠ none)).foldl
    (fun acc r =>
      match acc with
      | none => some r
      | some b => if completedLater b.completedAt r.completedAt then some r else some b)
    none

/-- `get_incremental_cutoff`: the `end_message_id` of that run. -/
def getIncrementalCutoff (s : Store) (roomId : Nat) : Option Nat :=
  (latestCompletedRun s roomId).bind fun r => r.endMsgId

/-- The required parameters of `DiscussionAnalyzer.__init__`
(`services/discussions.py`), `self` excluded; none has a default. -/
def analyzerInitRequiredParams : List String :=
  ["api_key", "db_session", "run_id", "room_id"]

/-- The keyword arguments supplied at the analyzer construction site inside
`_run_analysis_async` (`routers/discussions.py`):
`DiscussionAnalyzer(api_key=api_key, db_session=db, run_id=run_id)`. -/
def analyzerCallArgs : List String := ["api_key", "db_session", "run_id"]

/-- Python keyword-argument binding: the call binds iff every required
parameter receives an argument (otherwise `TypeError`). -/
def callBinds (required provided : List String) : Bool :=
  required.all fun p => provided.contains p

/-- The `except` handler of `_run_analysis_async`: set the run record's
`status` to `"failed"` and its `completed_at`, then commit.  (The handler
also stores `str(e)` in `error_message`, a column not carried by
`RunRow`.)  No other table is touched. -/
def markRunFailed (s : Store) (runId : Nat) (now : ℚ) : Store :=
  { s with runs := s.runs.map fun r =>
      if r.rid = runId then { r with status := "failed", completedAt := some now }
      else r }

/-- The incremental branch of `_run_analysis_async`: look up the run
record and check the mode (reads only), then attempt the analyzer
construction.  When the construction call binds, the analysis proceeds
(`none`: that path is never taken in this tree, since the call omits
`room_id` — provably, `callBinds` evaluates to `false` on the two argument
lists above); when it does not bind, the raised `TypeError` lands in the
`except` handler, which marks the run failed and writes nothing else. -/
def runAnalysisAsyncIncremental (s : Store) (runId : Nat) (now : ℚ) :
    Option Store :=
  if callBinds analyzerInitRequiredParams analyzerCallArgs then none
  else some (markRunFailed s runId now)

/-- Store for the C1 witness: one completed run for room 1 ending at
message 1 and zero messages past the cutoff, so the incremental
precondition of the claim (a last completed run, no new messages) holds. -/
def zeroNewStore : Store :=
  { msgs := [⟨1, 1, 0, some "hi"⟩],
    discussions := [⟨5, 1, some 1, "t", some "old", 0⟩],
    links := [(5, 1)],
    runs := [⟨1, 1, "completed", some 10, some 1⟩] }

/-! # Theorems -/

theorem windowLoop_closed_form (total start : Nat) :
    windowLoop total start = (total - start + (netPerWindow - 1)) / netPerWindow := by
  have h260 : netPerWindow = 260 := by decide
  rw [windowLoop]
  split
  · rename_i hlt
    rw [windowLoop_closed_form total (start + netPerWindow)]
    rw [h260] at *
    omega
  · rename_i hge
    rw [h260] at *
    omega
termination_by total - start
decreasing_by
  have h260 : 0 < netPerWindow := by decide
  omega

/-- C4 (counterexample): the claim fails at two concrete eligible message
counts.  At N = 0, `analyze_all_messages` returns early and processes 0
windows while the claimed formula `ceil(max(1, N) / (W - O))` gives 1.
At N = 261 (a room with fewer than `window_size = 300` eligible messages)
the loop runs twice (`window_start = 0` and `window_start = 260 < 261`), so
the run processes 2 windows, not "exactly one window". -/
theorem full_mode_window_count_counterexample :
    (fullModeWindowsProcessed 0 = 0 ∧ claimedWindowCount 0 = 1) ∧
      (261 < WINDOW_SIZE ∧ fullModeWindowsProcessed 261 = 2) := by
  refine ⟨⟨rfl, by decide⟩, by decide, ?_⟩
  rw [fullModeWindowsProcessed, if_neg (by decide : (261 : Nat) ≠ 0),
    windowLoop_closed_form]
  decide

/-- C4 (amended): for every eligible message count `N ≥ 1`, a full-mode
analysis run processes exactly `ceil(max(1, N) / (W - O))` windows with
`W = 300`, `O = 40` (which also equals the `total_windows` value the source
computes); a room with at least one and at most `W - O = 260` eligible
messages produces exactly one window (for `260 < N < 300` the run already
processes two windows, and a room with zero eligible messages processes
zero windows). -/
theorem full_mode_window_count (n : Nat) (h : 1 ≤ n) :
    fullModeWindowsProcessed n = claimedWindowCount n ∧
      fullModeWindowsProcessed n = fullModeTotalWindows n ∧
      (n ≤ netPerWindow → fullModeWindowsProcessed n = 1) := by
  have h260 : netPerWindow = 260 := by decide
  have hn : n ≠ 0 := by omega
  have hproc : fullModeWindowsProcessed n = (n + 259) / 260 := by
    rw [fullModeWindowsProcessed, if_neg hn, windowLoop_closed_form, h260]
    norm_num
  have hmax : max 1 n = n := by omega
  refine ⟨?_, ?_, ?_⟩
  · rw [hproc, claimedWindowCount, hmax, h260]
  · have hge : 1 ≤ (n + 259) / 260 := by
      rw [Nat.le_div_iff_mul_le (by norm_num : 0 < 260)]
      omega
    have heq : n + 260 - 1 = n + 259 := by omega
    rw [hproc, fullModeTotalWindows, h260, heq, max_eq_right hge]
  · intro hlt
    rw [hproc]
    rw [h260] at hlt
    apply Nat.div_eq_of_lt_le <;> omega

/-- Witness for `full_mode_window_count` at N = 5 (a room with fewer than
`W - O` messages): exactly one window. -/
theorem full_mode_window_count_witness :
    1 ≤ 5 ∧ (fullModeWindowsProcessed 5 = claimedWindowCount 5 ∧
      fullModeWindowsProcessed 5 = fullModeTotalWindows 5 ∧
      (5 ≤ netPerWindow → fullModeWindowsProcessed 5 = 1)) :=
  ⟨by decide, full_mode_window_count 5 (by decide)⟩

theorem length_insertSorted {α : Type} (le : α → α → Bool) (a : α) (l : List α) :
    (insertSorted le a l).length = l.length + 1 := by
  induction l with
  | nil => rfl
  | cons b t ih =>
      rw [insertSorted]
      split
      · rfl
      · simp only [List.length_cons, ih]

theorem mem_insertSorted {α : Type} (le : α → α → Bool) (a x : α) (l : List α) :
    x ∈ insertSorted le a l ↔ x = a ∨ x ∈ l := by
  induction l with
  | nil => simp [insertSorted]
  | cons b t ih =>
      rw [insertSorted]
      split
      · simp only [List.mem_cons]
      · simp only [List.mem_cons, ih]
        tauto

theorem length_sortBy {α : Type} (le : α → α → Bool) (l : List α) :
    (sortBy le l).length = l.length := by
  induction l with
  | nil => rfl
  | cons a t ih =>
      rw [sortBy, length_insertSorted, ih, List.length_cons]

theorem mem_sortBy {α : Type} (le : α → α → Bool) (x : α) (l : List α) :
    x ∈ sortBy le l ↔ x ∈ l := by
  induction l with
  | nil => simp [sortBy]
  | cons a t ih =>
      rw [sortBy, mem_insertSorted]
      simp only [List.mem_cons, ih]

theorem chain_insertSorted {α : Type} (le : α → α → Bool)
    (htot : ∀ a b, le a b = true ∨ le b a = true) (a : α) (l : List α)
    (hl : List.Chain' (fun x y => le x y = true) l) :
    List.Chain' (fun x y => le x y = true) (insertSorted le a l) := by
  induction l with
  | nil => simp [insertSorted]
  | cons b t ih =>
      rw [insertSorted]
      rcases List.chain'_cons'.mp hl with ⟨hb, ht⟩
      by_cases hab : le a b = true
      · rw [if_pos hab]
        refine List.chain'_cons'.mpr ⟨?_, hl⟩
        intro y hy
        simp only [List.head?_cons, Option.mem_def, Option.some.injEq] at hy
        subst hy
        exact hab
      · rw [if_neg hab]
        refine List.chain'_cons'.mpr ⟨?_, ih ht⟩
        intro y hy
        have hy' : y = a ∨ y ∈ t.head? := by
          cases t with
          | nil =>
              simp only [insertSorted, List.head?_cons, Option.mem_def,
                Option.some.injEq] at hy
              exact Or.inl hy.symm
          | cons c t' =>
              rw [insertSorted] at hy
              by_cases hac : le a c = true
              · rw [if_pos hac] at hy
                simp only [List.head?_cons, Option.mem_def, Option.some.injEq] at hy
                exact Or.inl hy.symm
              · rw [if_neg hac] at hy
                simp only [List.head?_cons, Option.mem_def, Option.some.injEq] at hy
                subst hy
                exact Or.inr (by simp)
        rcases hy' with h | hy'
        · rw [h]
          rcases htot a b with h2 | h2
          · exact absurd h2 hab
          · exact h2
        · exact hb y hy'

theorem chain_sortBy {α : Type} (le : α → α → Bool)
    (htot : ∀ a b, le a b = true ∨ le b a = true) (l : List α) :
    List.Chain' (fun x y => le x y = true) (sortBy le l) := by
  induction l with
  | nil => simp [sortBy]
  | cons a t ih => exact chain_insertSorted le htot a (sortBy le t) ih

theorem scoredResults_eq_filter_map (cands : List (Nat × ℚ)) (kw : Nat → ℚ) :
    scoredResults cands kw =
      (cands.filter fun c =>
          decide (SIMILARITY_THRESHOLD ≤ (fuseScore c.2 (kw c.1)).1)).map
        (fun c => (c.1, (fuseScore c.2 (kw c.1)).1, (fuseScore c.2 (kw c.1)).2)) := by
  induction cands with
  | nil => rfl
  | cons c t ih =>
      simp only [scoredResults] at ih ⊢
      rw [List.filterMap_cons, List.filter_cons, ih]
      by_cases hc : SIMILARITY_THRESHOLD ≤ (fuseScore c.2 (kw c.1)).1
      · simp [hc]
      · simp [hc]

/-- C2 (confirmed): for every search candidate with semantic score `s` and
(non-negative) keyword score `k`, the hybrid searcher computes
`final = 0.5*s + 0.5*k` with `match_type = hybrid` when `k > 0`, and
`final = s` with `match_type = semantic` when `k = 0`; every candidate
whose final score is below `SIMILARITY_THRESHOLD = 0.3` is excluded both
from the paginated results and from the pre-pagination total count (which
counts exactly the candidates whose final score reaches the threshold). -/
theorem hybrid_search_scoring (cands : List (Nat × ℚ)) (kw : Nat → ℚ)
    (page pageSize : Nat) (_hkw : ∀ i, 0 ≤ kw i) :
    (∀ c ∈ cands, 0 < kw c.1 →
        fuseScore c.2 (kw c.1) = (1/2 * c.2 + 1/2 * kw c.1, MatchType.hybrid)) ∧
      (∀ c ∈ cands, kw c.1 = 0 →
        fuseScore c.2 (kw c.1) = (c.2, MatchType.semantic)) ∧
      (∀ x ∈ paginate page pageSize (sortScored (scoredResults cands kw)),
        SIMILARITY_THRESHOLD ≤ x.2.1) ∧
      searchTotalCount cands kw =
        (cands.filter fun c =>
            decide (SIMILARITY_THRESHOLD ≤ (fuseScore c.2 (kw c.1)).1)).length := by
  refine ⟨?_, ?_, ?_, ?_⟩
  · intro c _ hpos
    rw [fuseScore, if_pos hpos, ALPHA]
  · intro c _ hzero
    rw [fuseScore, hzero, if_neg (by norm_num)]
  · intro x hx
    have hx1 : x ∈ sortScored (scoredResults cands kw) := by
      have htake := List.take_subset pageSize
        ((sortScored (scoredResults cands kw)).drop ((page - 1) * pageSize))
      have hdrop := List.drop_subset ((page - 1) * pageSize)
        (sortScored (scoredResults cands kw))
      exact hdrop (htake hx)
    rw [sortScored, mem_sortBy] at hx1
    rw [scoredResults, List.mem_filterMap] at hx1
    rcases hx1 with ⟨c, _, hc⟩
    by_cases hth : SIMILARITY_THRESHOLD ≤ (fuseScore c.2 (kw c.1)).1
    · rw [if_pos hth] at hc
      cases hc
      exact hth
    · rw [if_neg hth] at hc
      cases hc
  · rw [searchTotalCount, sortScored, length_sortBy, scoredResults_eq_filter_map,
      List.length_map]

theorem cleanupOldEntries_idem (now : ℚ) (u : List (ℚ × Nat)) :
    cleanupOldEntries now (cleanupOldEntries now u) = cleanupOldEntries now u := by
  simp [cleanupOldEntries, List.filter_filter]

theorem timeUntilAvailLoop_le (now : ℚ) (needed acc : Nat) (l : List (ℚ × Nat))
    (h : ∀ e ∈ l, e.1 ≤ now) : timeUntilAvailLoop now needed acc l ≤ 60 := by
  induction l generalizing acc with
  | nil => rw [timeUntilAvailLoop]
  | cons e rest ih =>
      rw [timeUntilAvailLoop]
      split
      · have he : e.1 ≤ now := h e (List.mem_cons_self e rest)
        apply max_le (by norm_num)
        linarith
      · exact ih (acc + e.2) (fun x hx => h x (List.mem_cons_of_mem e hx))

theorem timeUntilAvailable_le (maxTokens : Nat) (now : ℚ)
    (u : List (ℚ × Nat)) (t : Nat) (h : ∀ e ∈ u, e.1 ≤ now) :
    timeUntilAvailable maxTokens now u t ≤ 60 := by
  simp only [timeUntilAvailable]
  split
  · norm_num
  · split
    · norm_num
    · apply timeUntilAvailLoop_le
      intro e he
      rw [mem_sortBy] at he
      exact h e (List.mem_of_mem_filter he)

/-- C5 (confirmed): the rate limiter admits a request of estimated token
cost `t` iff `current_window_usage + t <= max_per_minute`; on refusal the
raised error carries `retry_after_seconds` at most the 60-second window
length (given that every recorded timestamp is in the past), and the
refused request neither appends a usage entry (the post-state is a sublist
of the pre-state) nor changes the current-window usage. -/
theorem rate_limiter_gate (maxTokens : Nat) (now : ℚ)
    (usage : List (ℚ × Nat)) (t : Nat) (hts : ∀ e ∈ usage, e.1 ≤ now) :
    ((attemptRequest maxTokens now usage t).1 = none ↔
        getCurrentUsage now usage + t ≤ maxTokens) ∧
      (∀ r, (attemptRequest maxTokens now usage t).1 = some r → r ≤ 60) ∧
      getCurrentUsage now (attemptRequest maxTokens now usage t).2 =
        getCurrentUsage now usage ∧
      (attemptRequest maxTokens now usage t).2.Sublist usage := by
  refine ⟨?_, ?_, ?_, ?_⟩
  · simp only [attemptRequest]
    by_cases hcan : getCurrentUsage now usage + t ≤ maxTokens
    · rw [if_pos (by rw [canUse]; exact decide_eq_true hcan)]
      simpa using hcan
    · rw [if_neg (by rw [canUse]; simpa using hcan)]
      simpa using hcan
  · intro r hr
    simp only [attemptRequest] at hr
    split at hr
    · exact absurd hr (by simp)
    · simp only [Option.some.injEq] at hr
      rw [← hr]
      apply timeUntilAvailable_le
      intro e he
      exact hts e (List.mem_of_mem_filter he)
  · have h2 : (attemptRequest maxTokens now usage t).2 = cleanupOldEntries now usage := by
      simp only [attemptRequest]
      split <;> rfl
    rw [h2, getCurrentUsage, getCurrentUsage, cleanupOldEntries_idem]
  · have h2 : (attemptRequest maxTokens now usage t).2 = cleanupOldEntries now usage := by
      simp only [attemptRequest]
      split <;> rfl
    rw [h2, cleanupOldEntries]
    exact List.filter_sublist usage

set_option maxRecDepth 4000 in
/-- Witness for `rate_limiter_gate`: spec scenario 5 — a bucket holding
799,500 of 800,000 tokens (recorded one second ago) refuses a request
estimated at 1,000 tokens with `retry_after = 59 ≤ 60` and unchanged
usage. -/
theorem rate_limiter_gate_witness :
    (∀ e ∈ [((99 : ℚ), 799500)], e.1 ≤ (100 : ℚ)) ∧
      (attemptRequest 800000 100 [((99 : ℚ), 799500)] 1000).1 = some 59 ∧
      (((attemptRequest 800000 100 [((99 : ℚ), 799500)] 1000).1 = none ↔
          getCurrentUsage 100 [((99 : ℚ), 799500)] + 1000 ≤ 800000) ∧
        (∀ r, (attemptRequest 800000 100 [((99 : ℚ), 799500)] 1000).1 = some r →
          r ≤ 60) ∧
        getCurrentUsage 100 (attemptRequest 800000 100 [((99 : ℚ), 799500)] 1000).2 =
          getCurrentUsage 100 [((99 : ℚ), 799500)] ∧
        (attemptRequest 800000 100 [((99 : ℚ), 799500)] 1000).2.Sublist
          [((99 : ℚ), 799500)]) :=
  ⟨by intro e he; simp at he; rw [he]; norm_num,
    by norm_num [attemptRequest, canUse, getCurrentUsage, cleanupOldEntries,
      timeUntilAvailable, timeUntilAvailLoop, sortBy, insertSorted, entryLe,
      List.filter],
    rate_limiter_gate 800000 100 [((99 : ℚ), 799500)] 1000
      (by intro e he; simp at he; rw [he]; norm_num)⟩

/-- Witness for `hybrid_search_scoring`: the stubbed scores of spec
scenario 4 (`candsW`, `kwW`) with the default first page. -/
theorem hybrid_search_scoring_witness :
    (∀ i, 0 ≤ kwW i) ∧
      ((∀ c ∈ candsW, 0 < kwW c.1 →
          fuseScore c.2 (kwW c.1) = (1/2 * c.2 + 1/2 * kwW c.1, MatchType.hybrid)) ∧
        (∀ c ∈ candsW, kwW c.1 = 0 →
          fuseScore c.2 (kwW c.1) = (c.2, MatchType.semantic)) ∧
        (∀ x ∈ paginate 1 20 (sortScored (scoredResults candsW kwW)),
          SIMILARITY_THRESHOLD ≤ x.2.1) ∧
        searchTotalCount candsW kwW =
          (candsW.filter fun c =>
              decide (SIMILARITY_THRESHOLD ≤ (fuseScore c.2 (kwW c.1)).1)).length) :=
  ⟨fun i => by simp only [kwW]; split <;> [norm_num; (split <;> norm_num)],
    hybrid_search_scoring candsW kwW 1 20
      (fun i => by simp only [kwW]; split <;> [norm_num; (split <;> norm_num)])⟩

theorem isLinked_addMessage (db : AnalyzerDB) (d m : Nat) (conf : ℚ) :
    isLinked (addMessageToDiscussion db d m conf) d m = true := by
  rw [addMessageToDiscussion]
  by_cases h : isLinked db d m = true
  · rw [if_pos h]
    exact h
  · rw [if_neg h, isLinked, List.find?_isSome]
    refine ⟨(d, m, conf), ?_, by simp⟩
    simp

theorem addMessage_already_linked (db : AnalyzerDB) (d m : Nat) (conf : ℚ)
    (h : isLinked db d m = true) : addMessageToDiscussion db d m conf = db := by
  rw [addMessageToDiscussion, if_pos h]

theorem addMessage_twice (db : AnalyzerDB) (d m : Nat) (c c' : ℚ) :
    addMessageToDiscussion (addMessageToDiscussion db d m c) d m c' =
      addMessageToDiscussion db d m c :=
  addMessage_already_linked _ d m c' (isLinked_addMessage db d m c)

theorem countInvariant_addMessage (db : AnalyzerDB) (d m : Nat) (conf : ℚ)
    (hinv : countInvariant db = true) :
    countInvariant (addMessageToDiscussion db d m conf) = true := by
  rw [addMessageToDiscussion]
  by_cases h : isLinked db d m = true
  · rw [if_pos h]
    exact hinv
  · rw [if_neg h]
    rw [countInvariant, List.all_eq_true] at hinv ⊢
    intro p' hp'
    simp only [List.mem_map] at hp'
    rcases hp' with ⟨p, hp, hfp⟩
    have hbase := hinv p hp
    rw [decide_eq_true_eq] at hbase
    rw [decide_eq_true_eq]
    rw [List.filter_append, List.length_append]
    by_cases hpd : p.1 = d
    · rw [if_pos hpd] at hfp
      subst hfp
      simp only [hpd, hbase, List.filter_cons]
      simp [hpd]
    · rw [if_neg hpd] at hfp
      subst hfp
      have hdp : ¬d = p.1 := fun hdp => hpd hdp.symm
      simp only [hbase, List.filter_cons]
      simp [hdp]

theorem countInvariant_create (db : AnalyzerDB) (d : Nat)
    (hfresh : db.links.all (fun l => decide (l.1 ≠ d)) = true)
    (hinv : countInvariant db = true) :
    countInvariant (createDiscussionRow db d) = true := by
  rw [createDiscussionRow]
  rw [countInvariant, List.all_eq_true] at hinv ⊢
  intro p hp
  simp only [List.mem_append, List.mem_singleton] at hp
  rcases hp with hp | hp
  · exact hinv p hp
  · subst hp
    rw [decide_eq_true_eq]
    rw [List.all_eq_true] at hfresh
    have hnil : (db.links.filter fun l => decide (l.1 = (d, 0).1)) = [] := by
      rw [List.filter_eq_nil_iff]
      intro l hl
      have hld := hfresh l hl
      rw [decide_eq_true_eq] at hld
      simpa using hld
    rw [hnil]
    rfl

/-- C6 (confirmed): appending a message to a discussion is idempotent on
`(discussion_id, message_id)` — a second append of an already-linked pair
returns the database unchanged (no inserted row, no `message_count`
change) — and along any sequence of window write operations (discussion
creations with fresh ids and message appends), every discussion row's
`message_count` equals the number of `DiscussionMessage` rows for that
discussion at every commit boundary. -/
theorem append_idempotent_count_invariant (db : AnalyzerDB)
    (ops : List AnalyzerOp) (hinv : countInvariant db = true)
    (hvalid : opsValid db ops = true) :
    (∀ d m c c', addMessageToDiscussion (addMessageToDiscussion db d m c) d m c' =
        addMessageToDiscussion db d m c) ∧
      (∀ d m c, isLinked db d m = true → addMessageToDiscussion db d m c = db) ∧
      countInvariant (applyOps db ops) = true := by
  refine ⟨fun d m c c' => addMessage_twice db d m c c',
    fun d m c h => addMessage_already_linked db d m c h, ?_⟩
  induction ops generalizing db with
  | nil => exact hinv
  | cons op rest ih =>
      cases op with
      | create d =>
          rw [opsValid] at hvalid
          rw [Bool.and_eq_true] at hvalid
          exact ih _ (countInvariant_create db d hvalid.1 hinv) hvalid.2
      | addMsg d m conf =>
          rw [opsValid] at hvalid
          exact ih _ (countInvariant_addMessage db d m conf hinv) hvalid

/-- Witness for `append_idempotent_count_invariant`: a store holding one
discussion with one linked message, a window that re-appends that pair,
creates a fresh discussion and appends a message to it. -/
theorem append_idempotent_count_invariant_witness :
    countInvariant ⟨[(5, 1)], [(5, 1, 9/10)]⟩ = true ∧
      opsValid ⟨[(5, 1)], [(5, 1, 9/10)]⟩
        [AnalyzerOp.addMsg 5 1 (1/2), AnalyzerOp.create 7,
          AnalyzerOp.addMsg 7 2 1] = true ∧
      ((∀ d m c c',
          addMessageToDiscussion
            (addMessageToDiscussion ⟨[(5, 1)], [(5, 1, 9/10)]⟩ d m c) d m c' =
            addMessageToDiscussion ⟨[(5, 1)], [(5, 1, 9/10)]⟩ d m c) ∧
        (∀ d m c, isLinked ⟨[(5, 1)], [(5, 1, 9/10)]⟩ d m = true →
          addMessageToDiscussion ⟨[(5, 1)], [(5, 1, 9/10)]⟩ d m c =
            ⟨[(5, 1)], [(5, 1, 9/10)]⟩) ∧
        countInvariant (applyOps ⟨[(5, 1)], [(5, 1, 9/10)]⟩
          [AnalyzerOp.addMsg 5 1 (1/2), AnalyzerOp.create 7,
            AnalyzerOp.addMsg 7 2 1]) = true) :=
  ⟨by decide, by decide,
    append_idempotent_count_invariant _ _ (by decide) (by decide)⟩

theorem fst_refreshActive (a : List Nat) (w : Nat) (p : Nat × WinDisc) :
    (refreshActive a w p).1 = p.1 := by
  rw [refreshActive]
  split <;> rfl

theorem fst_markDormant (w : Nat) (p : Nat × WinDisc) :
    (markDormant w p).1 = p.1 := by
  rw [markDormant]
  split <;> rfl

theorem fst_markEnded (e : List Nat) (p : Nat × WinDisc) :
    (markEnded e p).1 = p.1 := by
  rw [markEnded]
  split <;> rfl

theorem lookup_windowStateStep (state : List (Nat × WinDisc))
    (a e : List Nat) (w i : Nat) :
    lookupDisc (windowStateStep state a e w) i =
      (state.find? fun p => decide (p.1 = i)).map
        fun p => (markEnded e (markDormant w (refreshActive a w p))).2 := by
  simp only [lookupDisc, windowStateStep, List.map_map, List.find?_map,
    Option.map_map]
  have hpred : ((fun p : Nat × WinDisc => decide (p.1 = i)) ∘ markEnded e ∘
      markDormant w ∘ refreshActive a w) = fun p => decide (p.1 = i) := by
    funext p
    simp only [Function.comp_apply, fst_markEnded, fst_markDormant,
      fst_refreshActive]
  rw [hpred]
  rfl

theorem mem_dormant_of_lookup (state : List (Nat × WinDisc)) (i : Nat)
    (d : WinDisc) (h : lookupDisc state i = some d) :
    ∃ p ∈ state, p.1 = i ∧ p.2 = d := by
  rw [lookupDisc] at h
  rcases Option.map_eq_some'.mp h with ⟨p, hfind, hp2⟩
  refine ⟨p, List.mem_of_find?_eq_some hfind, ?_, hp2⟩
  have := List.find?_some hfind
  rwa [decide_eq_true_eq] at this

/-- C7 (confirmed): for a non-ended discussion that received no messages in
window `w`, the window transition marks it dormant exactly when
`w - last_active_window ≥ DORMANCY_THRESHOLD = 5` (given the reachable-state
invariant that an already-dormant discussion's inactivity gap is at least
the threshold); a dormant discussion never appears in the prompt's
active-discussions list; and a discussion that receives an applied message
assignment in window `w` ends the window with `dormant = false` and
`last_active_window = w`. -/
theorem dormancy_lifecycle (state : List (Nat × WinDisc))
    (activeIds endedIds : List Nat) (w : Nat)
    (hnodup : (state.map fun p => p.1).Nodup)
    (hinv : ∀ p ∈ state, p.2.dormant = true →
      DORMANCY_THRESHOLD ≤ w - p.2.lastActiveWindow) :
    (∀ i d, lookupDisc state i = some d → i ∈ activeIds →
        ∃ d', lookupDisc (windowStateStep state activeIds endedIds w) i = some d' ∧
          d'.dormant = false ∧ d'.lastActiveWindow = w) ∧
      (∀ i d, lookupDisc state i = some d → i ∉ activeIds → d.ended = false →
        ∃ d', lookupDisc (windowStateStep state activeIds endedIds w) i = some d' ∧
          (d'.dormant = true ↔ DORMANCY_THRESHOLD ≤ w - d.lastActiveWindow)) ∧
      (∀ i d, lookupDisc state i = some d → d.dormant = true →
        i ∉ promptActiveIds state) := by
  refine ⟨?_, ?_, ?_⟩
  · intro i d hld hia
    rw [lookupDisc] at hld
    rcases Option.map_eq_some'.mp hld with ⟨p, hfind, hp2⟩
    have hp1 : p.1 = i := by
      have := List.find?_some hfind
      rwa [decide_eq_true_eq] at this
    rw [lookup_windowStateStep, hfind, Option.map_some']
    refine ⟨_, rfl, ?_⟩
    rw [refreshActive, if_pos (by rw [hp1]; exact hia)]
    rw [markDormant]
    rw [if_neg (by simp [DORMANCY_THRESHOLD])]
    rw [markEnded]
    split <;> exact ⟨rfl, rfl⟩
  · intro i d hld hia hend
    rw [lookupDisc] at hld
    rcases Option.map_eq_some'.mp hld with ⟨p, hfind, hp2⟩
    subst hp2
    have hp1 : p.1 = i := by
      have := List.find?_some hfind
      rwa [decide_eq_true_eq] at this
    have hpmem := List.mem_of_find?_eq_some hfind
    rw [lookup_windowStateStep, hfind, Option.map_some']
    refine ⟨_, rfl, ?_⟩
    rw [refreshActive, if_neg (by rw [hp1]; exact hia)]
    by_cases hdorm : p.2.dormant = true
    · rw [markDormant, if_neg (by rw [hdorm]; simp)]
      have hgap := hinv p hpmem hdorm
      rw [markEnded]
      split <;> simp [hdorm, hgap]
    · by_cases hgap : DORMANCY_THRESHOLD ≤ w - p.2.lastActiveWindow
      · rw [markDormant, if_pos ⟨by simp [hend], hdorm, hgap⟩]
        rw [markEnded]
        split <;> simp [hgap]
      · rw [markDormant, if_neg (by intro hc; exact hgap hc.2.2)]
        rw [markEnded]
        split <;> simp [hdorm, hgap]
  · intro i d hld hdorm hmem
    rcases mem_dormant_of_lookup state i d hld with ⟨p, hpmem, hp1, hp2⟩
    rw [promptActiveIds] at hmem
    simp only [List.mem_map, List.mem_filter] at hmem
    rcases hmem with ⟨q, ⟨hqmem, hq⟩, hq1⟩
    have hpq : p = q :=
      List.inj_on_of_nodup_map hnodup hpmem hqmem (by rw [hp1, hq1])
    rw [← hpq, hp2] at hq
    rw [hdorm] at hq
    simp at hq

/-- Witness for `dormancy_lifecycle`: window 6 on a state holding one
discussion last active in window 1 (still awake) and one dormant
discussion; the awake one receives a message. -/
theorem dormancy_lifecycle_witness :
    ([((1 : Nat), WinDisc.mk false false 1), (2, WinDisc.mk false true 0)].map
        (fun p => p.1)).Nodup ∧
      (∀ p ∈ [((1 : Nat), WinDisc.mk false false 1), (2, WinDisc.mk false true 0)],
        p.2.dormant = true → DORMANCY_THRESHOLD ≤ 6 - p.2.lastActiveWindow) ∧
      ((∀ i d, lookupDisc [((1 : Nat), WinDisc.mk false false 1),
            (2, WinDisc.mk false true 0)] i = some d → i ∈ [1] →
          ∃ d', lookupDisc (windowStateStep [((1 : Nat), WinDisc.mk false false 1),
              (2, WinDisc.mk false true 0)] [1] [] 6) i = some d' ∧
            d'.dormant = false ∧ d'.lastActiveWindow = 6) ∧
        (∀ i d, lookupDisc [((1 : Nat), WinDisc.mk false false 1),
            (2, WinDisc.mk false true 0)] i = some d → i ∉ [1] → d.ended = false →
          ∃ d', lookupDisc (windowStateStep [((1 : Nat), WinDisc.mk false false 1),
              (2, WinDisc.mk false true 0)] [1] [] 6) i = some d' ∧
            (d'.dormant = true ↔ DORMANCY_THRESHOLD ≤ 6 - d.lastActiveWindow)) ∧
        (∀ i d, lookupDisc [((1 : Nat), WinDisc.mk false false 1),
            (2, WinDisc.mk false true 0)] i = some d → d.dormant = true →
          i ∉ promptActiveIds [((1 : Nat), WinDisc.mk false false 1),
            (2, WinDisc.mk false true 0)])) :=
  ⟨by decide, by decide,
    dormancy_lifecycle _ [1] [] 6 (by decide) (by decide)⟩

theorem mem_runs_foldl (rids : List Nat) (s : Store) (r : RunRow) :
    r ∈ (rids.foldl cascadeDeleteRun s).runs ↔ r ∈ s.runs ∧ r.rid ∉ rids := by
  induction rids generalizing s with
  | nil => simp
  | cons rid rest ih =>
      rw [List.foldl_cons, ih]
      rw [cascadeDeleteRun]
      simp only [List.mem_filter, decide_eq_true_eq, List.mem_cons]
      tauto

theorem mem_discussions_foldl (rids : List Nat) (s : Store) (d : DiscRow) :
    d ∈ (rids.foldl cascadeDeleteRun s).discussions ↔
      d ∈ s.discussions ∧ ∀ rid ∈ rids, d.runId ≠ some rid := by
  induction rids generalizing s with
  | nil => simp
  | cons rid rest ih =>
      rw [List.foldl_cons, ih]
      rw [cascadeDeleteRun]
      simp only [List.mem_filter, decide_eq_true_eq, List.forall_mem_cons]
      tauto

theorem links_foldl_subset (rids : List Nat) (s : Store) (l : Nat × Nat)
    (h : l ∈ (rids.foldl cascadeDeleteRun s).links) : l ∈ s.links := by
  induction rids generalizing s with
  | nil => exact h
  | cons rid rest ih =>
      rw [List.foldl_cons] at h
      have := ih (cascadeDeleteRun s rid) h
      rw [cascadeDeleteRun] at this
      exact List.mem_of_mem_filter this

theorem links_foldl_dead (rids : List Nat) (s : Store) (l : Nat × Nat)
    (d : DiscRow) (hd : d ∈ s.discussions) (rid' : Nat)
    (hrun : d.runId = some rid') (hin : rid' ∈ rids) (hl : l.1 = d.did) :
    l ∉ (rids.foldl cascadeDeleteRun s).links := by
  induction rids generalizing s with
  | nil => cases hin
  | cons rid rest ih =>
      rw [List.foldl_cons]
      rcases List.mem_cons.mp hin with heq | hin'
      · subst heq
        intro hmem
        have hc := links_foldl_subset rest (cascadeDeleteRun s rid') l hmem
        rw [cascadeDeleteRun] at hc
        rcases List.mem_filter.mp hc with ⟨_, hpred⟩
        rw [decide_eq_true_eq] at hpred
        apply hpred
        rw [hl]
        exact List.mem_map.mpr ⟨d, List.mem_filter.mpr ⟨hd, by
          rw [decide_eq_true_eq]; exact hrun⟩, rfl⟩
      · by_cases hrr : rid = rid'
        · subst hrr
          intro hmem
          have hc := links_foldl_subset rest (cascadeDeleteRun s rid) l hmem
          rw [cascadeDeleteRun] at hc
          rcases List.mem_filter.mp hc with ⟨_, hpred⟩
          rw [decide_eq_true_eq] at hpred
          apply hpred
          rw [hl]
          exact List.mem_map.mpr ⟨d, List.mem_filter.mpr ⟨hd, by
            rw [decide_eq_true_eq]; exact hrun⟩, rfl⟩
        · apply ih (cascadeDeleteRun s rid) _ hin'
          rw [cascadeDeleteRun]
          apply List.mem_filter.mpr
          refine ⟨hd, ?_⟩
          rw [decide_eq_true_eq, hrun]
          intro hc
          exact hrr (Option.some.injEq .. ▸ hc).symm

/-- C10 (confirmed): starting a full-mode analysis run deletes every
previous `AnalysisRun` record — with no room filter, so runs of *all*
rooms — before any window is processed, and by the schema's cascades this
also deletes every discussion created by those runs and every
discussion-message link of those discussions. -/
theorem full_mode_deletes_previous_runs (s : Store) (runId : Nat) :
    (∀ r ∈ (fullModeDeletePreviousRuns s runId).runs, r.rid = runId) ∧
      (∀ d ∈ s.discussions, ∀ rid', d.runId = some rid' → rid' ≠ runId →
        (∃ r ∈ s.runs, r.rid = rid') →
        d ∉ (fullModeDeletePreviousRuns s runId).discussions) ∧
      (∀ l : Nat × Nat, ∀ d ∈ s.discussions, l.1 = d.did →
        ∀ rid', d.runId = some rid' → rid' ≠ runId →
        (∃ r ∈ s.runs, r.rid = rid') →
        l ∉ (fullModeDeletePreviousRuns s runId).links) := by
  refine ⟨?_, ?_, ?_⟩
  · intro r hr
    rw [fullModeDeletePreviousRuns, mem_runs_foldl] at hr
    by_contra hne
    exact hr.2 (List.mem_map.mpr ⟨r, List.mem_filter.mpr ⟨hr.1, by
      rw [decide_eq_true_eq]; exact hne⟩, rfl⟩)
  · intro d hd rid' hrun hne ⟨r, hr, hrid⟩
    rw [fullModeDeletePreviousRuns, mem_discussions_foldl]
    intro ⟨_, hall⟩
    apply hall rid' _ hrun
    exact List.mem_map.mpr ⟨r, List.mem_filter.mpr ⟨hr, by
      rw [decide_eq_true_eq, hrid]; exact hne⟩, hrid⟩
  · intro l d hd hl rid' hrun hne ⟨r, hr, hrid⟩
    rw [fullModeDeletePreviousRuns]
    apply links_foldl_dead _ s l d hd rid' hrun _ hl
    exact List.mem_map.mpr ⟨r, List.mem_filter.mpr ⟨hr, by
      rw [decide_eq_true_eq, hrid]; exact hne⟩, hrid⟩

/-- Witness for `full_mode_deletes_previous_runs` on `runStoreW`: starting
full-mode run 3 (room 1) deletes completed run 2 of room 2, its
discussion 10 and the link `(10, 100)`. -/
theorem full_mode_deletes_previous_runs_witness :
    (∀ r ∈ (fullModeDeletePreviousRuns runStoreW 3).runs, r.rid = 3) ∧
      (⟨10, 2, some 2, "t", none, 0⟩ : DiscRow) ∉
        (fullModeDeletePreviousRuns runStoreW 3).discussions ∧
      ((10, 100) : Nat × Nat) ∉ (fullModeDeletePreviousRuns runStoreW 3).links :=
  ⟨(full_mode_deletes_previous_runs runStoreW 3).1,
    (full_mode_deletes_previous_runs runStoreW 3).2.1
      ⟨10, 2, some 2, "t", none, 0⟩ (by decide) 2 rfl (by decide)
      ⟨⟨2, 2, "completed", some 50, some 100⟩, by decide, rfl⟩,
    (full_mode_deletes_previous_runs runStoreW 3).2.2 (10, 100)
      ⟨10, 2, some 2, "t", none, 0⟩ (by decide) rfl 2 rfl (by decide)
      ⟨⟨2, 2, "completed", some 50, some 100⟩, by decide, rfl⟩⟩

theorem chain_imp_of_mem {α : Type} (R S : α → α → Prop) (P : α → Prop)
    (l : List α) (hP : ∀ x ∈ l, P x)
    (h : ∀ a b, P a → P b → R a b → S a b) (hc : List.Chain' R l) :
    List.Chain' S l := by
  induction l with
  | nil => simp
  | cons a t ih =>
      cases t with
      | nil => simp
      | cons b t2 =>
          rw [List.chain'_cons] at hc ⊢
          refine ⟨h a b (hP a (by simp)) (hP b (by simp)) hc.1, ?_⟩
          exact ih (fun x hx => hP x (List.mem_cons_of_mem a hx)) hc.2

theorem mem_contextFetch (s : Store) (roomId cutoffId : Nat) (m : MsgRow)
    (h : m ∈ contextFetch s roomId cutoffId) : m ∈ s.msgs := by
  rw [contextFetch, List.mem_reverse] at h
  have h2 := List.take_subset (CONTEXT_WINDOWS * WINDOW_SIZE) _ h
  rw [mem_sortBy] at h2
  exact List.mem_of_mem_filter h2

/-- C9 (counterexample): on a corpus where message ids and timestamps are
oppositely ordered (message 1 at timestamp 20, message 2 at timestamp 10),
the incremental context fetch — which orders by id, not by
`(timestamp, id)` — presents the messages as `[ts 20, ts 10]`, which is not
sorted by the `(timestamp, id)` total order. -/
theorem windowing_order_counterexample :
    contextFetch invertedStore 1 2 =
        [⟨1, 1, 20, some "late"⟩, ⟨2, 1, 10, some "early"⟩] ∧
      ¬List.Chain' (fun a b => tsIdLeMsg a b = true) (contextFetch invertedStore 1 2) := by
  constructor
  · rfl
  · intro hc
    rw [contextFetch] at hc
    have : tsIdLeMsg ⟨1, 1, 20, some "late"⟩ ⟨2, 1, 10, some "early"⟩ = true := by
      have hc' := hc
      rw [show ((sortBy idGeMsg (invertedStore.msgs.filter fun m =>
          decide (m.room = 1) && decide (m.mid ≤ 2) && eligibleMsg m)).take
          (CONTEXT_WINDOWS * WINDOW_SIZE)).reverse =
          [⟨1, 1, 20, some "late"⟩, ⟨2, 1, 10, some "early"⟩] from rfl] at hc'
      rw [List.chain'_cons] at hc'
      exact hc'.1
    rw [tsIdLeMsg] at this
    simp only [Bool.or_eq_true, Bool.and_eq_true, decide_eq_true_eq] at this
    rcases this with h | ⟨h, _⟩
    · norm_num at h
    · norm_num at h

/-- C9 (amended): the incremental context fetch presents eligible messages
in nondecreasing id order, while full-mode and incremental new-message
fetches present them in nondecreasing timestamp order only; the three
paths agree with the claimed `(timestamp, id)` order only under the extra
assumption that message ids are aligned with timestamps (id order implies
`(timestamp, id)` order), in which case the context path is
`(timestamp, id)`-sorted. -/
theorem windowing_order_amended (s : Store) (roomId cutoffId : Nat)
    (hmono : ∀ a ∈ s.msgs, ∀ b ∈ s.msgs, a.mid ≤ b.mid → tsIdLeMsg a b = true) :
    List.Chain' (fun a b => idLeMsg a b = true) (contextFetch s roomId cutoffId) ∧
      List.Chain' (fun a b => tsLeMsg a b = true) (fullModeFetch s roomId) ∧
      List.Chain' (fun a b => tsLeMsg a b = true) (newMessagesFetch s roomId cutoffId) ∧
      List.Chain' (fun a b => tsIdLeMsg a b = true) (contextFetch s roomId cutoffId) := by
  have htotTs : ∀ a b : MsgRow, tsLeMsg a b = true ∨ tsLeMsg b a = true := by
    intro a b
    rw [tsLeMsg, tsLeMsg]
    simp only [decide_eq_true_eq]
    exact le_total a.ts b.ts
  have htotId : ∀ a b : MsgRow, idGeMsg a b = true ∨ idGeMsg b a = true := by
    intro a b
    rw [idGeMsg, idGeMsg]
    simp only [decide_eq_true_eq]
    exact le_total b.mid a.mid
  have hctx : List.Chain' (fun a b => idLeMsg a b = true)
      (contextFetch s roomId cutoffId) := by
    rw [contextFetch, List.chain'_reverse]
    have hs := chain_sortBy idGeMsg htotId (s.msgs.filter fun m =>
      decide (m.room = roomId) && decide (m.mid ≤ cutoffId) && eligibleMsg m)
    have htake := hs.take (CONTEXT_WINDOWS * WINDOW_SIZE)
    refine htake.imp ?_
    intro a b hab
    rw [Function.flip_def]
    rw [idGeMsg] at hab
    rw [idLeMsg]
    exact hab
  refine ⟨hctx, ?_, ?_, ?_⟩
  · exact chain_sortBy tsLeMsg htotTs _
  · exact chain_sortBy tsLeMsg htotTs _
  · refine chain_imp_of_mem (fun a b => idLeMsg a b = true)
      (fun a b => tsIdLeMsg a b = true) (fun m => m ∈ s.msgs) _
      (fun m hm => mem_contextFetch s roomId cutoffId m hm) ?_ hctx
    intro a b ha hb hab
    rw [idLeMsg, decide_eq_true_eq] at hab
    exact hmono a ha b hb hab

/-- Witness for `windowing_order_amended` on `alignedStore` (ids aligned
with timestamps), cutoff 2. -/
theorem windowing_order_amended_witness :
    (∀ a ∈ alignedStore.msgs, ∀ b ∈ alignedStore.msgs,
        a.mid ≤ b.mid → tsIdLeMsg a b = true) ∧
      (List.Chain' (fun a b => idLeMsg a b = true) (contextFetch alignedStore 1 2) ∧
        List.Chain' (fun a b => tsLeMsg a b = true) (fullModeFetch alignedStore 1) ∧
        List.Chain' (fun a b => tsLeMsg a b = true) (newMessagesFetch alignedStore 1 2) ∧
        List.Chain' (fun a b => tsIdLeMsg a b = true) (contextFetch alignedStore 1 2)) :=
  ⟨by decide, windowing_order_amended alignedStore 1 2 (by decide)⟩

/-- C8 (code bug): for prepared content of at most 8,000 characters the
claim holds — two `embed_entity` calls with unchanged content make at most
one upstream embed call (one when the stored hash is missing or stale,
zero when it is already current).  But for content longer than 8,000
characters `embed_entity` compares the hash of the full content with the
stored hash of the 8,000-character truncation, which never match, so *both*
calls issue an upstream embed call: the skip mechanism is defeated. -/
theorem embed_entity_truncation_hash_mismatch {β : Type} [DecidableEq β]
    (hash : List Char → β) (hinj : Function.Injective hash)
    (content : List Char) (stored : Option β) :
    (content.length ≤ MAX_EMBED_CHARS → embedEntityTwice hash content stored ≤ 1) ∧
      (MAX_EMBED_CHARS < content.length → stored ≠ some (hash content) →
        embedEntityTwice hash content stored = 2) := by
  constructor
  · intro hlen
    have htr : truncateForEmbed content = content := by
      rw [truncateForEmbed, if_neg (by omega)]
    rw [embedEntityTwice]
    by_cases hst : stored = some (hash content)
    · rw [embedEntityStep, if_pos hst]
      rw [embedEntityStep, if_pos hst]
      norm_num
    · rw [embedEntityStep, if_neg hst]
      rw [embedEntityStep]
      rw [if_pos (by rw [embedTextHash, htr])]
      norm_num
  · intro hlen hst
    have hne : truncateForEmbed content ≠ content := by
      intro hc
      have : (truncateForEmbed content).length = content.length := by rw [hc]
      rw [truncateForEmbed, if_pos hlen, List.length_take] at this
      omega
    have hhne : hash (truncateForEmbed content) ≠ hash content :=
      fun hc => hne (hinj hc)
    rw [embedEntityTwice]
    rw [embedEntityStep, if_neg hst]
    rw [embedEntityStep, embedTextHash]
    rw [if_neg (by intro hc; exact hhne (Option.some.injEq .. ▸ hc))]
    norm_num

/-- Witness for `embed_entity_truncation_hash_mismatch`: with the identity
(injective) hash model and an 8,001-character content with no stored
embedding, the two calls make two upstream embed calls — not the one call
the claim states. -/
theorem embed_entity_truncation_hash_mismatch_witness :
    Function.Injective (fun t : List Char => t) ∧
      (((List.replicate 8001 'a').length ≤ MAX_EMBED_CHARS →
          embedEntityTwice (fun t => t) (List.replicate 8001 'a') none ≤ 1) ∧
        (MAX_EMBED_CHARS < (List.replicate 8001 'a').length →
          none ≠ some ((fun t : List Char => t) (List.replicate 8001 'a')) →
          embedEntityTwice (fun t => t) (List.replicate 8001 'a') none = 2)) ∧
      embedEntityTwice (fun t => t) (List.replicate 8001 'a') none = 2 :=
  ⟨fun a b h => h,
    embed_entity_truncation_hash_mismatch (fun t => t) (fun a b h => h)
      (List.replicate 8001 'a') none,
    (embed_entity_truncation_hash_mismatch (fun t => t) (fun a b h => h)
        (List.replicate 8001 'a') none).2
      (by rw [List.length_replicate]; norm_num [MAX_EMBED_CHARS])
      (fun h => Option.noConfusion h)⟩

theorem mem_updateDesc (ts : List TopicRow) (tid : Nat) (desc : String)
    (t' : TopicRow) (h : t' ∈ updateDesc ts tid desc) :
    ∃ t0 ∈ ts, t'.tid = t0.tid ∧ t'.room = t0.room := by
  rw [updateDesc] at h
  rcases List.mem_map.mp h with ⟨t0, ht0, heq⟩
  refine ⟨t0, ht0, ?_⟩
  by_cases hc : t0.tid = tid
  · rw [if_pos hc] at heq
    rw [← heq]
    exact ⟨rfl, rfl⟩
  · rw [if_neg hc] at heq
    rw [← heq]
    exact ⟨rfl, rfl⟩

theorem lookupCI_mem (existing : List TopicRow) (nm : String) (t : TopicRow)
    (h : lookupCI existing nm = some t) : t ∈ existing := by
  rw [lookupCI] at h
  have := List.mem_of_find?_eq_some h
  exact List.mem_reverse.mp this

theorem nameMapGet_mem_values (m : List (String × Nat)) (nm : String) (v : Nat)
    (h : nameMapGet m nm = some v) : v ∈ m.map fun p => p.2 := by
  rw [nameMapGet] at h
  rcases Option.map_eq_some'.mp h with ⟨p, hfind, hp⟩
  have hpm : p ∈ m := List.mem_reverse.mp (List.mem_of_find?_eq_some hfind)
  exact hp ▸ List.mem_map.mpr ⟨p, hpm, rfl⟩

theorem buildAssignmentLinks_values (nameMap : List (String × Nat))
    (assignments : List (Nat × List String)) (l : Nat × Nat)
    (h : l ∈ buildAssignmentLinks nameMap assignments) :
    l.2 ∈ nameMap.map fun p => p.2 := by
  rw [buildAssignmentLinks] at h
  rcases List.mem_flatten.mp h with ⟨sub, hsub, hl⟩
  rcases List.mem_map.mp hsub with ⟨a, _, hs⟩
  rw [← hs] at hl
  rcases List.mem_filterMap.mp hl with ⟨nm, _, hget⟩
  rcases Option.map_eq_some'.mp hget with ⟨tid, hgot, heq⟩
  have := nameMapGet_mem_values nameMap nm tid hgot
  rw [← heq]
  exact this

theorem upsertTopicsLoop_room_sound (existing : List TopicRow) (roomId : Nat)
    (tdefs : List (String × String)) (ts : List TopicRow)
    (nameMap : List (String × Nat)) (ci nid : Nat)
    (hN : ∀ t ∈ ts, t.tid < nid)
    (hmapOK : ∀ v ∈ nameMap.map (fun p => p.2), ∀ t ∈ ts, t.tid = v →
      t.room = roomId)
    (hexTid : ∀ e ∈ existing, ∀ t ∈ ts, t.tid = e.tid → t.room = roomId)
    (hexN : ∀ e ∈ existing, e.tid < nid) :
    ∀ v ∈ (upsertTopicsLoop existing roomId tdefs ts nameMap ci nid).2.map
        (fun p => p.2),
      ∀ t ∈ (upsertTopicsLoop existing roomId tdefs ts nameMap ci nid).1,
        t.tid = v → t.room = roomId := by
  induction tdefs generalizing ts nameMap ci nid with
  | nil => exact hmapOK
  | cons nmdesc rest ih =>
      rcases nmdesc with ⟨nm, desc⟩
      rw [upsertTopicsLoop]
      cases hlk : lookupCI existing nm with
      | some t =>
          have htmem := lookupCI_mem existing nm t hlk
          apply ih
          · intro t' ht'
            rcases mem_updateDesc ts t.tid desc t' ht' with ⟨t0, ht0, htid, _⟩
            rw [htid]
            exact hN t0 ht0
          · intro v hv t' ht' htid
            rcases mem_updateDesc ts t.tid desc t' ht' with ⟨t0, ht0, htid0, hroom⟩
            rw [List.map_append] at hv
            rcases List.mem_append.mp hv with hv | hv
            · rw [hroom]
              exact hmapOK v hv t0 ht0 (by rw [← htid0]; exact htid)
            · simp only [List.map_cons, List.map_nil, List.mem_singleton] at hv
              rw [hroom]
              exact hexTid t htmem t0 ht0 (by rw [← htid0, htid, hv])
          · intro e he t' ht' htid
            rcases mem_updateDesc ts t.tid desc t' ht' with ⟨t0, ht0, htid0, hroom⟩
            rw [hroom]
            exact hexTid e he t0 ht0 (by rw [← htid0]; exact htid)
          · exact hexN
      | none =>
          apply ih
          · intro t' ht'
            rcases List.mem_append.mp ht' with ht' | ht'
            · exact Nat.lt_succ_of_lt (hN t' ht')
            · rw [List.mem_singleton] at ht'
              rw [ht']
              exact Nat.lt_succ_self nid
          · intro v hv t' ht' htid
            rcases List.mem_append.mp ht' with ht' | ht'
            · rw [List.map_append] at hv
              rcases List.mem_append.mp hv with hv | hv
              · exact hmapOK v hv t' ht' htid
              · simp only [List.map_cons, List.map_nil, List.mem_singleton] at hv
                have hlt := hN t' ht'
                rw [htid, hv] at hlt
                omega
            · rw [List.mem_singleton] at ht'
              rw [ht']
          · intro e he t' ht' htid
            rcases List.mem_append.mp ht' with ht' | ht'
            · exact hexTid e he t' ht' htid
            · rw [List.mem_singleton] at ht'
              rw [ht']
          · intro e he
            exact Nat.lt_succ_of_lt (hexN e he)

/-- C3 (counterexample): classifying room 1 deletes room 2's
discussion-topic link `(9, 2)` (the source clears the whole
`discussion_topics` table, not just the room's rows) and then deletes
room 2's topic as a zero-assignment orphan — the claim says links and
topics of other rooms are left unchanged. -/
theorem topic_classification_counterexample :
    ((9, 2) : Nat × Nat) ∈ topicLinksCE ∧
      ((9, 2) : Nat × Nat) ∉ (classifyTopicsApply topicsCE topicLinksCE 1 100 topicRespCE).2 ∧
      (⟨2, 2, "Other", some "x", "#ffffff"⟩ : TopicRow) ∈ topicsCE ∧
      (⟨2, 2, "Other", some "x", "#ffffff"⟩ : TopicRow) ∉
        (classifyTopicsApply topicsCE topicLinksCE 1 100 topicRespCE).1 := by
  refine ⟨by decide, ?_, by decide, ?_⟩
  · rw [show (classifyTopicsApply topicsCE topicLinksCE 1 100 topicRespCE).2 =
      [(7, 100)] from rfl]
    decide
  · rw [show (classifyTopicsApply topicsCE topicLinksCE 1 100 topicRespCE).1 =
      [⟨100, 1, "A", some "d", "#6366f1"⟩] from rfl]
    decide

/-- C3 (amended): the apply phase of a topic-classification run for a room
clears the *entire* `discussion_topics` table (its output does not depend
on the previous links at all), upserts the returned topics by
case-insensitive name within the room, and deletes *every* topic that ends
with zero assignments — including other rooms' topics, whose links were
all cleared.  Consequently every surviving topic has at least one
assignment link and belongs to the analyzed room (given unique topic ids
and a fresh primary-key start). -/
theorem topic_classification_amended (topics : List TopicRow)
    (links : List (Nat × Nat)) (roomId nextId : Nat) (resp : TopicAIResp)
    (hnodup : (topics.map fun t => t.tid).Nodup)
    (hfresh : ∀ t ∈ topics, t.tid < nextId) :
    classifyTopicsApply topics links roomId nextId resp =
        classifyTopicsApply topics [] roomId nextId resp ∧
      (∀ t ∈ (classifyTopicsApply topics links roomId nextId resp).1,
        ∃ l ∈ (classifyTopicsApply topics links roomId nextId resp).2,
          l.2 = t.tid) ∧
      (∀ t ∈ (classifyTopicsApply topics links roomId nextId resp).1,
        t.room = roomId) := by
  refine ⟨rfl, ?_, ?_⟩
  · intro t ht
    rw [classifyTopicsApply] at ht ⊢
    rcases List.mem_filter.mp ht with ⟨_, hpred⟩
    rw [decide_eq_true_eq] at hpred
    rcases List.mem_map.mp hpred with ⟨l, hl, hl2⟩
    exact ⟨l, hl, hl2⟩
  · intro t ht
    rw [classifyTopicsApply] at ht
    rcases List.mem_filter.mp ht with ⟨hmem, hpred⟩
    rw [decide_eq_true_eq] at hpred
    rcases List.mem_map.mp hpred with ⟨l, hl, hl2⟩
    have hval := buildAssignmentLinks_values _ resp.assignments l hl
    refine upsertTopicsLoop_room_sound
      (topics.filter fun t => decide (t.room = roomId)) roomId resp.topics
      topics [] ((topics.filter fun t => decide (t.room = roomId)).length %
        TOPIC_COLORS.length) nextId hfresh (by simp) ?_ ?_ t.tid
      (by rw [← hl2]; exact hval) t hmem rfl
    · intro e he t0 ht0 htid
      have hemem := List.mem_of_mem_filter he
      have : t0 = e := List.inj_on_of_nodup_map hnodup ht0 hemem htid
      rw [this]
      have := (List.mem_filter.mp he).2
      rwa [decide_eq_true_eq] at this
    · intro e he
      exact hfresh e (List.mem_of_mem_filter he)

/-- Witness for `topic_classification_amended` on `topicsW` /
`topicRespW`: "ethics" reuses room 1's "Ethics" case-insensitively,
"Aesthetics" is created fresh; every surviving topic is a room-1 topic
with an assignment. -/
theorem topic_classification_amended_witness :
    ((topicsW.map fun t => t.tid).Nodup ∧ ∀ t ∈ topicsW, t.tid < 3) ∧
      (classifyTopicsApply topicsW [(9, 2)] 1 3 topicRespW =
          classifyTopicsApply topicsW [] 1 3 topicRespW ∧
        (∀ t ∈ (classifyTopicsApply topicsW [(9, 2)] 1 3 topicRespW).1,
          ∃ l ∈ (classifyTopicsApply topicsW [(9, 2)] 1 3 topicRespW).2,
            l.2 = t.tid) ∧
        (∀ t ∈ (classifyTopicsApply topicsW [(9, 2)] 1 3 topicRespW).1,
          t.room = 1)) :=
  ⟨⟨by decide, by decide⟩,
    topic_classification_amended topicsW [(9, 2)] 1 3 topicRespW
      (by decide) (by decide)⟩

/-- C1 (confirmed): running incremental analysis on a corpus with zero new
messages since the last completed run creates no new discussions, changes
no discussion summaries, and performs no embedding upserts — in this
source tree the incremental branch of `_run_analysis_async` cannot even
reach the analysis: the `DiscussionAnalyzer` construction omits the
required `room_id` parameter, so the call never binds (`callBinds` is
`false`), the branch raises into the `except` handler, and the only write
is marking the run record failed; messages, discussions (hence their
summaries), and discussion-message links are untouched (and no code path
of the branch reaches an embedding write). -/
theorem incremental_zero_new_noop (s : Store) (roomId runId : Nat)
    (now : ℚ) (cutoffId : Nat)
    (_hcut : getIncrementalCutoff s roomId = some cutoffId)
    (_hnew : newMessagesFetch s roomId cutoffId = []) :
    callBinds analyzerInitRequiredParams analyzerCallArgs = false ∧
      ∃ s', runAnalysisAsyncIncremental s runId now = some s' ∧
        s'.discussions = s.discussions ∧
        (s'.discussions.map fun d => d.summary) =
          (s.discussions.map fun d => d.summary) ∧
        s'.links = s.links ∧ s'.msgs = s.msgs := by
  have hbind : callBinds analyzerInitRequiredParams analyzerCallArgs = false := by
    decide
  refine ⟨hbind, markRunFailed s runId now, ?_, rfl, rfl, rfl, rfl⟩
  rw [runAnalysisAsyncIncremental, if_neg (by rw [hbind]; exact Bool.false_ne_true)]

/-- Witness for `incremental_zero_new_noop` at `zeroNewStore` (last
completed run ends at message 1, zero new messages): the incremental run
leaves discussions, summaries, links and messages unchanged. -/
theorem incremental_zero_new_noop_witness :
    (getIncrementalCutoff zeroNewStore 1 = some 1 ∧
        newMessagesFetch zeroNewStore 1 1 = []) ∧
      (callBinds analyzerInitRequiredParams analyzerCallArgs = false ∧
        ∃ s', runAnalysisAsyncIncremental zeroNewStore 2 11 = some s' ∧
          s'.discussions = zeroNewStore.discussions ∧
          (s'.discussions.map fun d => d.summary) =
            (zeroNewStore.discussions.map fun d => d.summary) ∧
          s'.links = zeroNewStore.links ∧ s'.msgs = zeroNewStore.msgs) :=
  ⟨⟨rfl, rfl⟩, incremental_zero_new_noop zeroNewStore 1 2 11 1 rfl rfl⟩

end MessengerArchive
